import Mathlib

/-!
Shallow embedding of the deduplication / repost-detection core of the
job-finder pipeline (`src/deduplication.py`, data model from
`src/models.py`, persistence collaborators from `src/database.py`).

Strings are modelled as lists of Unicode code points (`List Nat`); the
Python string operations used by the source (`str.lower`, `str.strip`,
`re.sub(r'[^\w\s]', '', s)`, `str.split`, `str.split("|")`,
`str.replace("&", "and")`, `in` substring tests) are embedded at the
code-point level for the ASCII range the pipeline manipulates.
`rapidfuzz.fuzz.ratio` is the normalized Indel similarity scaled to
[0, 100]: `100 * 2 * lcs(a, b) / (|a| + |b|)`, with 100 for two empty
strings; it is embedded over ℚ.

The persistence collaborators (`url_exists`, `get_existing_fuzzy_keys`,
`get_recent_fuzzy_keys`) return already-materialized data; they are
embedded as explicit parameters: a list of stored URLs, a list of
historical fuzzy keys, and an association list of recent fuzzy keys to
listing ids.
-/

/-- Strings as lists of code points. -/
abbrev Str := List Nat

/-- Decode a Lean string literal into the code-point model. -/
def ofString (s : String) : Str := s.toList.map Char.toNat

/-- Python `str.lower` on one ASCII code point. -/
def pyLowerChar (c : Nat) : Nat := if 65 ≤ c ∧ c ≤ 90 then c + 32 else c

/-- Python `str.lower`. -/
def pyLower (s : Str) : Str := s.map pyLowerChar

/-- Python whitespace (`str.strip` default set, `\s`): space, \t, \n, \r, \v, \f. -/
def isSpaceChar (c : Nat) : Bool := c == 32 || c == 9 || c == 10 || c == 13 || c == 11 || c == 12

/-- Regex `\w`: `[a-zA-Z0-9_]`. -/
def isWordChar (c : Nat) : Bool :=
  (48 ≤ c && c ≤ 57) || (97 ≤ c && c ≤ 122) || (65 ≤ c && c ≤ 90) || c == 95

/-- Python `str.strip()`: drop leading and trailing whitespace. -/
def pyStrip (s : Str) : Str :=
  ((s.dropWhile (isSpaceChar ·)).reverse.dropWhile (isSpaceChar ·)).reverse

/-- `re.sub(r'[^\w\s]', '', s)`: delete every character that is neither
a word character nor whitespace. -/
def stripPunct (s : Str) : Str := s.filter (fun c => isWordChar c || isSpaceChar c)

/-- Worker for Python `str.split()`: scan the string keeping the current
word (reversed) in `acc`; whitespace flushes a nonempty word. -/
def splitWsAux : Str → Str → List Str
  | [], acc => if acc == [] then [] else [acc.reverse]
  | c :: rest, acc =>
    if isSpaceChar c then
      if acc == [] then splitWsAux rest [] else acc.reverse :: splitWsAux rest []
    else splitWsAux rest (c :: acc)

/-- Python `str.split()` (no argument): maximal runs of non-whitespace,
empties discarded. -/
def splitWs (s : Str) : List Str := splitWsAux s []

/-- Python `" ".join(words)`. -/
def joinSp (ws : List Str) : Str := (ws.intersperse [32]).flatten

/-- Python `s.replace("&", "and")`: the pattern is the single character
`&` (38), so replacement substitutes `and` (97, 110, 100) for each
occurrence. -/
def replaceAmp (s : Str) : Str := s.flatMap (fun c => if c == 38 then [97, 110, 100] else [c])

/-- List-prefix test (Python-style, `==` on code points). -/
def isPre : Str → Str → Bool
  | [], _ => true
  | _ :: _, [] => false
  | a :: as, b :: bs => a == b && isPre as bs

/-- Python substring containment `pat in s`: `pat` occurs contiguously in
`s` (the empty pattern is contained in every string). -/
def isSub (pat : Str) : Str → Bool
  | [] => pat == []
  | c :: rest => isPre pat (c :: rest) || isSub pat rest

/-- Python `s.split("|")`: split on every `|` (124), keeping empty chunks;
`"".split("|") == [""]`. -/
def splitBar : Str → List Str
  | [] => [[]]
  | c :: rest =>
    if c == 124 then [] :: splitBar rest
    else
      match splitBar rest with
      | [] => [[c]]
      | h :: t => (c :: h) :: t

/-- Fuel-indexed worker for the longest-common-subsequence length (the
fuel bounds `|a| + |b|`, which strictly decreases at every call). -/
def lcsAux : Nat → Str → Str → Nat
  | 0, _, _ => 0
  | _ + 1, [], _ => 0
  | _ + 1, _ :: _, [] => 0
  | fuel + 1, a :: as, b :: bs =>
    if a == b then lcsAux fuel as bs + 1
    else max (lcsAux fuel (a :: as) bs) (lcsAux fuel as (b :: bs))

/-- Length of a longest common subsequence; `rapidfuzz.fuzz.ratio` is the
Indel similarity, determined by this quantity. -/
def lcsLen (a b : Str) : Nat := lcsAux (a.length + b.length) a b

/-- `rapidfuzz.fuzz.ratio`: normalized Indel similarity in [0, 100].
Indel distance is `|a| + |b| - 2 * lcs(a, b)`, so the ratio is
`100 * 2 * lcs(a, b) / (|a| + |b|)`; two empty strings score 100. -/
def fuzzRatio (a b : Str) : ℚ :=
  if a.length + b.length = 0 then 100
  else mkRat (100 * (2 * lcsLen a b)) (a.length + b.length)

/-- `COMPANY_SUFFIXES` from `src/deduplication.py` (note the dotted
variants lose their dot under punctuation stripping before this list is
consulted, exactly as in the source). -/
def COMPANY_SUFFIXES : List Str :=
  [ofString "inc", ofString "inc.", ofString "llc", ofString "llc.",
   ofString "corp", ofString "corp.", ofString "corporation",
   ofString "ltd", ofString "ltd.", ofString "limited",
   ofString "co", ofString "co.", ofString "company",
   ofString "technologies", ofString "technology", ofString "tech",
   ofString "labs", ofString "lab",
   ofString "group", ofString "holdings", ofString "solutions", ofString "services"]

/-- `FUZZY_THRESHOLD = 85`. -/
def FUZZY_THRESHOLD : ℚ := 85

/-- `normalize_company`: lower + strip, delete punctuation, drop suffix
tokens, rejoin with single spaces, strip. -/
def normalize_company (name : Str) : Str :=
  let name1 := pyStrip (pyLower name)
  let name2 := stripPunct name1
  let words := splitWs name2
  let words2 := words.filter (fun w => !(COMPANY_SUFFIXES.contains w))
  pyStrip (joinSp words2)

/-- `normalize_title`: lower + strip, delete punctuation, then replace
`&` by `and` (in this order, as in the source), strip. -/
def normalize_title (title : Str) : Str :=
  let title1 := pyStrip (pyLower title)
  let title2 := stripPunct title1
  let title3 := replaceAmp title2
  pyStrip title3

def la_keywords : List Str :=
  [ofString "los angeles", ofString "la", ofString "beverly hills", ofString "santa monica",
   ofString "culver city", ofString "playa vista", ofString "venice", ofString "el segundo"]

def sf_keywords : List Str :=
  [ofString "san francisco", ofString "sf", ofString "bay area", ofString "palo alto",
   ofString "mountain view", ofString "menlo park", ofString "sunnyvale", ofString "oakland",
   ofString "san jose"]

def nyc_keywords : List Str :=
  [ofString "new york", ofString "nyc", ofString "manhattan", ofString "brooklyn"]

/-- `normalize_location`: lower + strip, then the three keyword loops in
priority order (each loop returns the same constant for every keyword,
so a loop is an `any` over its keyword list); free text passes through. -/
def normalize_location (location : Str) : Str :=
  let location1 := pyStrip (pyLower location)
  if la_keywords.any (fun kw => isSub kw location1) then ofString "los_angeles"
  else if sf_keywords.any (fun kw => isSub kw location1) then ofString "san_francisco"
  else if nyc_keywords.any (fun kw => isSub kw location1) then ofString "new_york"
  else location1

/-- `JobListing` from `src/models.py` (the two runtime-generated
defaults, `raw_html` and `date_scraped`, carried as plain fields;
`salary_min`/`salary_max` are floats only ever tested for `None`,
modelled over ℚ). -/
structure JobListing where
  title : Str
  company : Str
  location : Str
  description : Str
  url : Str
  source : Str
  salary_min : Option ℚ := none
  salary_max : Option ℚ := none
  experience_required : Option Str := none
  date_posted : Option Str := none
  company_industry : Option Str := none
  raw_html : Option Str := none
  date_scraped : Str := []
  fuzzy_key : Option Str := none
  is_repost : Bool := false
  original_listing_id : Option Nat := none
deriving DecidableEq, Repr

/-- Python truthiness of an `Optional[str]`: `None` and `""` are falsy. -/
def truthyOptStr : Option Str → Bool
  | none => false
  | some s => !(s == [])

/-- Python `x or ""` on an `Optional[str]`. -/
def orEmpty : Option Str → Str
  | none => []
  | some s => s

/-- `generate_fuzzy_key`: the composite `company|title|location` key
(`listing.location or ""` is the identity on the non-optional `location`
field of the dataclass). -/
def generate_fuzzy_key (listing : JobListing) : Str :=
  let company := normalize_company listing.company
  let title := normalize_title listing.title
  let location := normalize_location listing.location
  company ++ [124] ++ title ++ [124] ++ location

/-- `_completeness_score`: integer completeness heuristic (the
description test is Python `listing.description and len(...) > 100`). -/
def completeness_score (listing : JobListing) : Nat :=
  (if !(listing.description == []) && decide (100 < listing.description.length) then 3 else 0)
  + (if listing.salary_min.isSome then 2 else 0)
  + (if listing.salary_max.isSome then 2 else 0)
  + (if truthyOptStr listing.experience_required then 1 else 0)
  + (if truthyOptStr listing.date_posted then 1 else 0)
  + (if truthyOptStr listing.company_industry then 1 else 0)

/-- The key-assignment loop at the head of `deduplicate_batch`:
`listing.fuzzy_key = generate_fuzzy_key(listing)` for every listing. -/
def assignKeys (listings : List JobListing) : List JobListing :=
  listings.map (fun l => { l with fuzzy_key := some (generate_fuzzy_key l) })

/-- The representative-replacement step inside `deduplicate_batch`'s
duplicate branch: find the first element of `unique` whose stored
`fuzzy_key` equals the matched `seen_key`; if the incoming listing's
completeness score is strictly higher, overwrite it in place. -/
def replaceRep : List JobListing → Str → JobListing → List JobListing
  | [], _, _ => []
  | u :: us, seenKey, l =>
    if u.fuzzy_key == some seenKey then
      if completeness_score l > completeness_score u then l :: us else u :: us
    else u :: replaceRep us seenKey l

/-- The main loop of `deduplicate_batch` over `(unique, seen_keys)`:
the inner `for seen_key in seen_keys` loop breaks at the first key whose
similarity reaches the threshold (`List.find?`); a fresh listing is
appended to both accumulators. -/
def dedupFold : List JobListing → List Str → List JobListing → List JobListing × List Str
  | unique, seenKeys, [] => (unique, seenKeys)
  | unique, seenKeys, l :: rest =>
    match seenKeys.find? (fun k => decide (FUZZY_THRESHOLD ≤ fuzzRatio (orEmpty l.fuzzy_key) k)) with
    | some seenKey => dedupFold (replaceRep unique seenKey l) seenKeys rest
    | none => dedupFold (unique ++ [l]) (seenKeys ++ [orEmpty l.fuzzy_key]) rest

/-- `deduplicate_batch`. -/
def deduplicate_batch (listings : List JobListing) : List JobListing :=
  if listings == [] then []
  else (dedupFold [] [] (assignKeys listings)).1

/-- The inner `for existing_key in existing_keys` loop of
`filter_already_seen`: `is_seen` becomes true at the first historical
key reaching the threshold. -/
def anySeen (existingKeys : List Str) (key : Str) : Bool :=
  match existingKeys with
  | [] => false
  | e :: es => if FUZZY_THRESHOLD ≤ fuzzRatio key e then true else anySeen es key

/-- `url_exists` (`src/database.py`): exact-equality lookup among the
stored listings' URLs. -/
def url_exists (storedUrls : List Str) (url : Str) : Bool := storedUrls.contains url

/-- `filter_already_seen`, with the persistence reads supplied as data:
`storedUrls` backs `url_exists`, `existingKeys` is
`get_existing_fuzzy_keys()`'s key set. -/
def filter_already_seen (storedUrls existingKeys : List Str) :
    List JobListing → List JobListing
  | [] => []
  | l :: rest =>
    if url_exists storedUrls l.url then filter_already_seen storedUrls existingKeys rest
    else if anySeen existingKeys (orEmpty l.fuzzy_key) then
      filter_already_seen storedUrls existingKeys rest
    else l :: filter_already_seen storedUrls existingKeys rest

/-- The per-window-entry test in `detect_reposts`: split both keys on
`|`; when both have at least two segments, compare the company segments
at threshold 90 and the title segments at threshold 85. -/
def repostMatch (key : Str) (entry : Str × Nat) : Bool :=
  let listingParts := splitBar key
  let recentParts := splitBar entry.1
  if 2 ≤ listingParts.length ∧ 2 ≤ recentParts.length then
    decide (90 ≤ fuzzRatio (listingParts.getD 0 []) (recentParts.getD 0 []))
      && decide (85 ≤ fuzzRatio (listingParts.getD 1 []) (recentParts.getD 1 []))
  else false

/-- `listing.fuzzy_key or generate_fuzzy_key(listing)` in
`detect_reposts` (Python truthiness: `None` and `""` fall back to the
generated key). -/
def repostKey (l : JobListing) : Str :=
  match l.fuzzy_key with
  | none => generate_fuzzy_key l
  | some k => if k == [] then generate_fuzzy_key l else k

/-- The per-listing body of `detect_reposts`: resolve the key, then the
window scan with break at the first matching entry, setting both flags. -/
def processRepost (recentKeys : List (Str × Nat)) (l : JobListing) : JobListing :=
  match recentKeys.find? (repostMatch (repostKey l)) with
  | some entry => { l with is_repost := true, original_listing_id := some entry.2 }
  | none => l

/-- `detect_reposts`, with `get_recent_fuzzy_keys(days=30)` supplied as
an association list of `(fuzzy_key, listing_id)` window entries; the
in-place mutation loop over the input sequence is its element-wise map. -/
def detect_reposts (recentKeys : List (Str × Nat)) (listings : List JobListing) :
    List JobListing :=
  listings.map (processRepost recentKeys)

/-- Equality on every `JobListing` field except the two repost flags
(`is_repost`, `original_listing_id`): the frame of `detect_reposts`. -/
def sameExceptFlags (a b : JobListing) : Prop :=
  a.title = b.title ∧ a.company = b.company ∧ a.location = b.location ∧
  a.description = b.description ∧ a.url = b.url ∧ a.source = b.source ∧
  a.salary_min = b.salary_min ∧ a.salary_max = b.salary_max ∧
  a.experience_required = b.experience_required ∧ a.date_posted = b.date_posted ∧
  a.company_industry = b.company_industry ∧ a.raw_html = b.raw_html ∧
  a.date_scraped = b.date_scraped ∧ a.fuzzy_key = b.fuzzy_key

/-- Scenario A, first listing: `{company:"Acme Inc.", title:"Ops
Associate", location:"Santa Monica"}`. -/
def scA1 : JobListing :=
  { title := ofString "Ops Associate", company := ofString "Acme Inc.",
    location := ofString "Santa Monica", description := [], url := ofString "u1",
    source := ofString "s1" }

/-- Scenario A, second listing: `{company:"Acme", title:"Ops Associate",
location:"Los Angeles"}`. -/
def scA2 : JobListing :=
  { title := ofString "Ops Associate", company := ofString "Acme",
    location := ofString "Los Angeles", description := [], url := ofString "u2",
    source := ofString "s2" }

/-- Cluster seed: completeness score 0, fuzzy key
`"acme|ops associate|"`. -/
def cluA : JobListing :=
  { title := ofString "Ops Associate", company := ofString "Acme",
    location := [], description := [], url := ofString "uA", source := ofString "s" }

/-- Second cluster member: completeness score 2 (salary_min), fuzzy key
`"acme|ops associates|"`, within threshold of `cluA`'s key. -/
def cluB : JobListing :=
  { title := ofString "Ops Associates", company := ofString "Acme",
    location := [], description := [], url := ofString "uB", source := ofString "s",
    salary_min := some 1 }

/-- Third cluster member: completeness score 4 (both salary bounds),
same fuzzy key as `cluB`. -/
def cluC : JobListing :=
  { title := ofString "Ops Associates", company := ofString "Acme",
    location := [], description := [], url := ofString "uC", source := ofString "s",
    salary_min := some 1, salary_max := some 2 }

/-- `cluB` after key assignment inside `deduplicate_batch`. -/
def cluB' : JobListing := { cluB with fuzzy_key := some (ofString "acme|ops associates|") }

/-- `cluC` after key assignment inside `deduplicate_batch`. -/
def cluC' : JobListing := { cluC with fuzzy_key := some (ofString "acme|ops associates|") }

/-- A listing whose free-text location contains the key delimiter. -/
def barLoc : JobListing :=
  { title := ofString "Engineer", company := ofString "Acme",
    location := ofString "Remote | USA", description := [], url := ofString "uR",
    source := ofString "s" }

/-- Candidate fuzzy key at exactly 86 similarity to `hist86`:
43 `a`s then 7 `b`s, against 43 `a`s then 7 `c`s. -/
def cand86 : Str := List.replicate 43 97 ++ List.replicate 7 98

/-- Historical fuzzy key scoring exactly 86 against `cand86`. -/
def hist86 : Str := List.replicate 43 97 ++ List.replicate 7 99

/-- Candidate fuzzy key at exactly 84 similarity to `hist84`:
42 `a`s then 8 `b`s, against 42 `a`s then 8 `c`s. -/
def cand84 : Str := List.replicate 42 97 ++ List.replicate 8 98

/-- Historical fuzzy key scoring exactly 84 against `cand84`. -/
def hist84 : Str := List.replicate 42 97 ++ List.replicate 8 99

/-- Listing carrying `cand86` as its fuzzy key. -/
def seen86 : JobListing :=
  { title := [], company := [], location := [], description := [], url := ofString "u86",
    source := [], fuzzy_key := some cand86 }

/-- Listing carrying `cand84` as its fuzzy key. -/
def seen84 : JobListing :=
  { title := [], company := [], location := [], description := [], url := ofString "u84",
    source := [], fuzzy_key := some cand84 }

/-- Repost witness candidate: fuzzy key `"acme|operations manager|la"`. -/
def repW : JobListing :=
  { title := ofString "Operations Manager", company := ofString "Acme",
    location := ofString "LA", description := [], url := ofString "uW",
    source := ofString "s", fuzzy_key := some (ofString "acme|operations manager|la") }

/-- Repost witness window: one recent entry with id 7 whose key shares
company and title segments with `repW`'s key. -/
def repWindow : List (Str × Nat) := [(ofString "acme|operations manager|", 7)]

/-! ## Basic lemmas about the similarity engine -/

theorem lcsAux_nil_left (f : Nat) (b : Str) : lcsAux f [] b = 0 := by
  cases f <;> rfl

theorem lcsAux_nil_right (f : Nat) (a : Str) : lcsAux f a [] = 0 := by
  cases f <;> cases a <;> rfl

theorem lcsAux_congr :
    ∀ (n f g : Nat) (a b : Str), a.length + b.length ≤ n → n ≤ f → n ≤ g →
      lcsAux f a b = lcsAux g a b := by
  intro n
  induction n with
  | zero =>
    intro f g a b hn _ _
    cases a with
    | nil => rw [lcsAux_nil_left, lcsAux_nil_left]
    | cons x xs => simp at hn
  | succ m ih =>
    intro f g a b hn hf hg
    cases a with
    | nil => rw [lcsAux_nil_left, lcsAux_nil_left]
    | cons x xs =>
      cases b with
      | nil => rw [lcsAux_nil_right, lcsAux_nil_right]
      | cons y ys =>
        obtain ⟨f', rfl⟩ : ∃ f', f = f' + 1 := ⟨f - 1, by omega⟩
        obtain ⟨g', rfl⟩ : ∃ g', g = g' + 1 := ⟨g - 1, by omega⟩
        simp only [lcsAux, List.length_cons] at hn ⊢
        have h1 : lcsAux f' xs ys = lcsAux g' xs ys := by
          apply ih <;> simp at * <;> omega
        have h2 : lcsAux f' (x :: xs) ys = lcsAux g' (x :: xs) ys := by
          apply ih <;> simp at * <;> omega
        have h3 : lcsAux f' xs (y :: ys) = lcsAux g' xs (y :: ys) := by
          apply ih <;> simp at * <;> omega
        rw [h1, h2, h3]

theorem lcsLen_nil_left (b : Str) : lcsLen [] b = 0 := lcsAux_nil_left _ b

theorem lcsLen_nil_right (a : Str) : lcsLen a [] = 0 := lcsAux_nil_right _ a

theorem lcsLen_cons_cons (a b : Nat) (as bs : Str) :
    lcsLen (a :: as) (b :: bs) =
      if a == b then lcsLen as bs + 1
      else max (lcsLen (a :: as) bs) (lcsLen as (b :: bs)) := by
  have hstep :
      lcsLen (a :: as) (b :: bs) =
        if a == b then lcsAux (as.length + 1 + bs.length) as bs + 1
        else max (lcsAux (as.length + 1 + bs.length) (a :: as) bs)
                 (lcsAux (as.length + 1 + bs.length) as (b :: bs)) := rfl
  rw [hstep]
  have e1 : lcsAux (as.length + 1 + bs.length) as bs = lcsLen as bs :=
    lcsAux_congr (as.length + bs.length) _ _ as bs le_rfl (by omega) le_rfl
  have e2 : lcsAux (as.length + 1 + bs.length) (a :: as) bs = lcsLen (a :: as) bs :=
    lcsAux_congr (as.length + 1 + bs.length) _ _ (a :: as) bs (by simp)
      le_rfl (by simp)
  have e3 : lcsAux (as.length + 1 + bs.length) as (b :: bs) = lcsLen as (b :: bs) :=
    lcsAux_congr (as.length + 1 + bs.length) _ _ as (b :: bs) (by simp; omega)
      le_rfl (by simp; omega)
  rw [e1, e2, e3]

theorem lcsLen_comm (a b : Str) : lcsLen a b = lcsLen b a := by
  have key : ∀ (n : Nat) (a b : Str), a.length + b.length ≤ n → lcsLen a b = lcsLen b a := by
    intro n
    induction n with
    | zero =>
      intro a b hn
      cases a <;> cases b <;> simp_all [lcsLen_nil_left, lcsLen_nil_right]
    | succ m ih =>
      intro a b hn
      cases a with
      | nil => rw [lcsLen_nil_left, lcsLen_nil_right]
      | cons x xs =>
        cases b with
        | nil => rw [lcsLen_nil_left, lcsLen_nil_right]
        | cons y ys =>
          rw [lcsLen_cons_cons, lcsLen_cons_cons]
          simp only [List.length_cons] at hn
          have hbeq : (x == y) = (y == x) := by
            cases h : x == y with
            | true => exact (beq_iff_eq.mpr (beq_iff_eq.mp h).symm).symm
            | false =>
              cases h' : y == x with
              | true => exact absurd (beq_iff_eq.mpr (beq_iff_eq.mp h').symm) (by simp [h])
              | false => rfl
          rw [← hbeq]
          cases h : x == y with
          | true =>
            simp only [h, if_true]
            rw [ih xs ys (by omega)]
          | false =>
            simp only [h, Bool.false_eq_true, if_false]
            rw [ih (x :: xs) ys (by simp; omega), ih xs (y :: ys) (by simp; omega),
              Nat.max_comm]
  exact key (a.length + b.length) a b le_rfl

theorem fuzzRatio_comm (a b : Str) : fuzzRatio a b = fuzzRatio b a := by
  unfold fuzzRatio
  rw [lcsLen_comm, Nat.add_comm a.length b.length]

/-! ## Batch deduplication: length bound and freshness characterization -/

theorem replaceRep_length (us : List JobListing) (k : Str) (l : JobListing) :
    (replaceRep us k l).length = us.length := by
  induction us with
  | nil => rfl
  | cons u t ih =>
    simp only [replaceRep]
    split
    · split <;> simp
    · simp [ih]

theorem dedupFold_fst_length_le :
    ∀ (rest unique : List JobListing) (seen : List Str),
      (dedupFold unique seen rest).1.length ≤ unique.length + rest.length := by
  intro rest
  induction rest with
  | nil => intro unique seen; simp [dedupFold]
  | cons l t ih =>
    intro unique seen
    simp only [dedupFold]
    cases hf : seen.find?
        (fun k => decide (FUZZY_THRESHOLD ≤ fuzzRatio (orEmpty l.fuzzy_key) k)) with
    | some s0 =>
      have h1 := ih (replaceRep unique s0 l) seen
      rw [replaceRep_length] at h1
      simp only [List.length_cons]
      omega
    | none =>
      have h1 := ih (unique ++ [l]) (seen ++ [orEmpty l.fuzzy_key])
      simp only [List.length_append, List.length_cons, List.length_nil] at h1 ⊢
      omega

theorem dedupFold_length_eq_iff :
    ∀ (rest unique : List JobListing) (seen : List Str),
      ((dedupFold unique seen rest).1.length = unique.length + rest.length) ↔
        ((∀ k ∈ rest.map (fun l => orEmpty l.fuzzy_key), ∀ s ∈ seen,
            fuzzRatio k s < FUZZY_THRESHOLD) ∧
          (rest.map (fun l => orEmpty l.fuzzy_key)).Pairwise
            (fun a b => fuzzRatio b a < FUZZY_THRESHOLD)) := by
  intro rest
  induction rest with
  | nil => intro unique seen; simp [dedupFold]
  | cons l t ih =>
    intro unique seen
    simp only [dedupFold, List.map_cons]
    cases hf : seen.find?
        (fun k => decide (FUZZY_THRESHOLD ≤ fuzzRatio (orEmpty l.fuzzy_key) k)) with
    | some s0 =>
      have hlen : (dedupFold (replaceRep unique s0 l) seen t).1.length
          ≤ unique.length + t.length := by
        have h1 := dedupFold_fst_length_le t (replaceRep unique s0 l) seen
        rwa [replaceRep_length] at h1
      have hs0mem : s0 ∈ seen := List.mem_of_find?_eq_some hf
      have hs0sim : FUZZY_THRESHOLD ≤ fuzzRatio (orEmpty l.fuzzy_key) s0 := by
        have h2 := List.find?_some hf
        simpa using h2
      constructor
      · intro h
        exfalso
        simp only [List.length_cons] at h
        omega
      · rintro ⟨h1, _⟩
        exact absurd hs0sim (not_le.mpr (h1 (orEmpty l.fuzzy_key) (by simp) s0 hs0mem))
    | none =>
      have hnone : ∀ s ∈ seen, fuzzRatio (orEmpty l.fuzzy_key) s < FUZZY_THRESHOLD := by
        intro s hs
        have h2 := List.find?_eq_none.mp hf s hs
        simpa [not_le] using h2
      have harith : (unique ++ [l]).length + t.length = unique.length + (l :: t).length := by
        simp only [List.length_append, List.length_cons, List.length_nil]
        omega
      rw [← harith, ih]
      simp only [List.mem_cons, List.mem_append, List.not_mem_nil, or_false,
        List.pairwise_cons]
      constructor
      · rintro ⟨h1, h2⟩
        refine ⟨?_, ?_, h2⟩
        · rintro k (rfl | hk) s hs
          · exact hnone s hs
          · exact h1 k hk s (Or.inl hs)
        · intro b hb
          exact h1 b hb (orEmpty l.fuzzy_key) (Or.inr rfl)
      · rintro ⟨h1, h2, h3⟩
        refine ⟨?_, h3⟩
        rintro k hk s (hs | rfl)
        · exact h1 k (Or.inr hk) s hs
        · exact h2 k hk

theorem assignKeys_keys (L : List JobListing) :
    (assignKeys L).map (fun l => orEmpty l.fuzzy_key) = L.map generate_fuzzy_key := by
  simp [assignKeys, List.map_map, Function.comp_def, orEmpty]

/-- C4: `deduplicate_batch` never grows a batch, and preserves its length
exactly when no two listings' fuzzy keys reach the 85 similarity
threshold. -/
theorem deduplicate_batch_count (L : List JobListing) :
    (deduplicate_batch L).length ≤ L.length ∧
      ((deduplicate_batch L).length = L.length ↔
        (L.map generate_fuzzy_key).Pairwise
          (fun a b => fuzzRatio a b < FUZZY_THRESHOLD)) := by
  by_cases hL : L = []
  · subst hL
    simp [deduplicate_batch]
  · have hne : (L == []) = false := by
      cases L with
      | nil => exact absurd rfl hL
      | cons a t => rfl
    have hbatch : deduplicate_batch L = (dedupFold [] [] (assignKeys L)).1 := by
      unfold deduplicate_batch
      rw [hne]
      rfl
    have hlen : (assignKeys L).length = L.length := by simp [assignKeys]
    have h1 := dedupFold_fst_length_le (assignKeys L) [] []
    have h2 := dedupFold_length_eq_iff (assignKeys L) [] []
    rw [assignKeys_keys] at h2
    simp only [List.length_nil, Nat.zero_add, List.not_mem_nil, false_implies, implies_true,
      true_and] at h1 h2
    rw [hbatch, hlen] at *
    constructor
    · omega
    · rw [h2]
      constructor
      · intro h
        exact h.imp (fun hab => by rwa [fuzzRatio_comm] at hab)
      · intro h
        exact h.imp (fun hab => by rwa [fuzzRatio_comm] at hab)

/-! ## Seen-before filter -/

theorem contains_iff_mem_str (l : List Str) (a : Str) : l.contains a = true ↔ a ∈ l := by
  rw [List.contains_eq_any_beq, List.any_eq_true]
  simp

theorem anySeen_iff (keys : List Str) (k : Str) :
    anySeen keys k = true ↔ ∃ e ∈ keys, FUZZY_THRESHOLD ≤ fuzzRatio k e := by
  induction keys with
  | nil => simp [anySeen]
  | cons e es ih =>
    simp only [anySeen]
    by_cases h : FUZZY_THRESHOLD ≤ fuzzRatio k e
    · simp only [if_pos h, true_iff]
      exact ⟨e, by simp, h⟩
    · rw [if_neg h, ih]
      constructor
      · rintro ⟨x, hx, hsim⟩
        exact ⟨x, by simp [hx], hsim⟩
      · rintro ⟨x, hx, hsim⟩
        rcases List.mem_cons.mp hx with rfl | hx2
        · exact absurd hsim h
        · exact ⟨x, hx2, hsim⟩

/-- C5: `filter_already_seen` keeps exactly the listings whose URL
exact-matches no stored URL and whose fuzzy key stays below the 85
threshold against every historical key, passing them through unchanged
and in order; at similarity exactly 86 a listing is removed, at exactly
84 it is kept. -/
theorem filter_already_seen_spec :
    (∀ (storedUrls existingKeys : List Str) (L : List JobListing),
      filter_already_seen storedUrls existingKeys L =
        L.filter (fun l => decide (l.url ∉ storedUrls ∧
          ∀ e ∈ existingKeys, fuzzRatio (orEmpty l.fuzzy_key) e < FUZZY_THRESHOLD))) ∧
    fuzzRatio cand86 hist86 = 86 ∧ filter_already_seen [] [hist86] [seen86] = [] ∧
    fuzzRatio cand84 hist84 = 84 ∧ filter_already_seen [] [hist84] [seen84] = [seen84] := by
  refine ⟨?_, by decide, by decide, by decide, by decide⟩
  intro urls keys L
  induction L with
  | nil => rfl
  | cons l t ih =>
    simp only [filter_already_seen, List.filter_cons]
    by_cases hurl : l.url ∈ urls
    · have hu : url_exists urls l.url = true := (contains_iff_mem_str _ _).mpr hurl
      rw [if_pos hu, ih]
      have hp : (decide (l.url ∉ urls ∧
          ∀ e ∈ keys, fuzzRatio (orEmpty l.fuzzy_key) e < FUZZY_THRESHOLD)) = false := by
        simp [hurl]
      rw [hp]
      simp
    · have hu : url_exists urls l.url = false := by
        cases h : url_exists urls l.url with
        | true => exact absurd ((contains_iff_mem_str _ _).mp h) hurl
        | false => rfl
      rw [if_neg (by simp [hu])]
      by_cases hseen : anySeen keys (orEmpty l.fuzzy_key) = true
      · rw [if_pos hseen, ih]
        obtain ⟨e, he, hsim⟩ := (anySeen_iff _ _).mp hseen
        have hp : (decide (l.url ∉ urls ∧
            ∀ e ∈ keys, fuzzRatio (orEmpty l.fuzzy_key) e < FUZZY_THRESHOLD)) = false := by
          simp only [decide_eq_false_iff_not, not_and, not_forall]
          intro _
          exact ⟨e, he, not_lt.mpr hsim⟩
        rw [hp]
        simp
      · rw [if_neg hseen, ih]
        have hall : ∀ e ∈ keys, fuzzRatio (orEmpty l.fuzzy_key) e < FUZZY_THRESHOLD := by
          intro e he
          by_contra hc
          exact hseen ((anySeen_iff _ _).mpr ⟨e, he, not_lt.mp hc⟩)
        have hp : (decide (l.url ∉ urls ∧
            ∀ e ∈ keys, fuzzRatio (orEmpty l.fuzzy_key) e < FUZZY_THRESHOLD)) = true := by
          simp only [decide_eq_true_eq]
          exact ⟨hurl, hall⟩
        rw [hp]
        simp

/-! ## Repost detection -/

theorem processRepost_frame (recent : List (Str × Nat)) (l : JobListing) :
    sameExceptFlags (processRepost recent l) l := by
  unfold processRepost
  split <;> simp [sameExceptFlags]

/-- C7: `detect_reposts` removes, adds, and reorders nothing: the output
has the same length, and position by position every field except
`is_repost` and `original_listing_id` is unchanged. -/
theorem detect_reposts_frame (recent : List (Str × Nat)) (L : List JobListing) :
    (detect_reposts recent L).length = L.length ∧
      List.Forall₂ sameExceptFlags (detect_reposts recent L) L := by
  refine ⟨by simp [detect_reposts], ?_⟩
  induction L with
  | nil => simp [detect_reposts]
  | cons l t ih =>
    simp only [detect_reposts, List.map_cons] at *
    exact List.Forall₂.cons (processRepost_frame recent l) ih

theorem repostMatch_iff (key : Str) (e : Str × Nat) :
    repostMatch key e = true ↔
      (2 ≤ (splitBar key).length ∧ 2 ≤ (splitBar e.1).length ∧
        90 ≤ fuzzRatio ((splitBar key).getD 0 []) ((splitBar e.1).getD 0 []) ∧
        85 ≤ fuzzRatio ((splitBar key).getD 1 []) ((splitBar e.1).getD 1 [])) := by
  dsimp only [repostMatch]
  split
  · rename_i h
    simp only [Bool.and_eq_true, decide_eq_true_eq]
    exact ⟨fun ⟨a, b⟩ => ⟨h.1, h.2, a, b⟩, fun ⟨_, _, a, b⟩ => ⟨a, b⟩⟩
  · rename_i h
    simp only [Bool.false_eq_true, false_iff]
    rintro ⟨h1, h2, _, _⟩
    exact h ⟨h1, h2⟩

/-- C6: a candidate whose `is_repost` flag starts false is marked
`is_repost = true` by `detect_reposts` exactly when some 30-day-window
entry clears both segment thresholds (company ≥ 90, title ≥ 85, both
splits having at least two segments, location ignored); at the first
matching window entry (the `find?` result) both flags are set from that
entry and scanning stops. -/
theorem detect_reposts_flag (recent : List (Str × Nat)) (L : List JobListing)
    (i : Nat) (hi : i < L.length) (hi2 : i < (detect_reposts recent L).length)
    (hflag : (L.get ⟨i, hi⟩).is_repost = false) :
    (((detect_reposts recent L).get ⟨i, hi2⟩).is_repost = true ↔
      ∃ e ∈ recent,
        2 ≤ (splitBar (repostKey (L.get ⟨i, hi⟩))).length ∧
        2 ≤ (splitBar e.1).length ∧
        90 ≤ fuzzRatio ((splitBar (repostKey (L.get ⟨i, hi⟩))).getD 0 [])
              ((splitBar e.1).getD 0 []) ∧
        85 ≤ fuzzRatio ((splitBar (repostKey (L.get ⟨i, hi⟩))).getD 1 [])
              ((splitBar e.1).getD 1 [])) ∧
    (∀ e, recent.find? (repostMatch (repostKey (L.get ⟨i, hi⟩))) = some e →
      (detect_reposts recent L).get ⟨i, hi2⟩ =
        { L.get ⟨i, hi⟩ with is_repost := true, original_listing_id := some e.2 }) := by
  have hmap : (detect_reposts recent L).get ⟨i, hi2⟩ =
      processRepost recent (L.get ⟨i, hi⟩) := by
    simp [detect_reposts, List.get_eq_getElem, List.getElem_map]
  rw [hmap]
  unfold processRepost
  cases hfind : recent.find? (repostMatch (repostKey (L.get ⟨i, hi⟩))) with
  | none =>
    constructor
    · rw [hflag]
      simp only [Bool.false_eq_true, false_iff]
      rintro ⟨e, he, h1, h2, h3, h4⟩
      have hnot := List.find?_eq_none.mp hfind e he
      exact hnot ((repostMatch_iff _ _).mpr ⟨h1, h2, h3, h4⟩)
    · intro e he
      exact absurd he (by simp)
  | some e0 =>
    constructor
    · simp only [true_iff]
      have hmem : e0 ∈ recent := List.mem_of_find?_eq_some hfind
      have hp := (repostMatch_iff _ _).mp (List.find?_some hfind)
      exact ⟨e0, hmem, hp.1, hp.2.1, hp.2.2.1, hp.2.2.2⟩
    · intro e he
      rw [Option.some.injEq] at he
      rw [he]

/-- Witness for C6: `repW`'s key matches `repWindow`'s single entry
(company segments equal, title segments equal), so it is flagged. -/
theorem detect_reposts_flag_witness :
    ((detect_reposts repWindow [repW]).get ⟨0, by decide⟩).is_repost = true :=
  (detect_reposts_flag repWindow [repW] 0 (by decide) (by decide) (by decide)).1.mpr
    ⟨(ofString "acme|operations manager|", 7), by decide, by decide, by decide,
      by decide, by decide⟩

/-! ## Scenario evaluations and location normalization -/

/-- C8: Scenario A — both listings' fuzzy keys normalize to
`"acme|ops associate|los_angeles"` and `deduplicate_batch` keeps exactly
one listing. -/
theorem scenarioA_dedup :
    generate_fuzzy_key scA1 = ofString "acme|ops associate|los_angeles" ∧
    generate_fuzzy_key scA2 = ofString "acme|ops associate|los_angeles" ∧
    (deduplicate_batch [scA1, scA2]).length = 1 := by decide

/-- C1 (code bug): all three listings join `cluA`'s similarity cluster,
`cluB` (score 2) replaces `cluA` (score 0) in place with the cluster key
retained, but the still-more-complete `cluC` (score 4) is then dropped —
the replacement lookup `u.fuzzy_key == seen_key` no longer finds the
representative, whose stored key is its own, not the cluster's — so the
survivor's completeness score is NOT maximal in its cluster. -/
theorem dedup_completeness_violation :
    FUZZY_THRESHOLD ≤ fuzzRatio (generate_fuzzy_key cluB) (generate_fuzzy_key cluA) ∧
    FUZZY_THRESHOLD ≤ fuzzRatio (generate_fuzzy_key cluC) (generate_fuzzy_key cluA) ∧
    deduplicate_batch [cluA, cluB, cluC] = [cluB'] ∧
    completeness_score cluC' > completeness_score cluB' := by decide

/-- C10: any location whose trimmed lowercase form contains the
substring `"la"` canonicalizes to `"los_angeles"`, because `"la"` is in
the first (Los Angeles) keyword set and matching is substring
containment. -/
theorem normalize_location_la (loc : Str)
    (h : isSub (ofString "la") (pyStrip (pyLower loc)) = true) :
    normalize_location loc = ofString "los_angeles" := by
  have hany : la_keywords.any (fun kw => isSub kw (pyStrip (pyLower loc))) = true :=
    List.any_eq_true.mpr ⟨ofString "la", by decide, h⟩
  dsimp only [normalize_location]
  rw [if_pos hany]

/-- Witness for C10: `"Oakland, CA"` (a San Francisco Bay Area alias)
contains `"la"` in `"oakland"` and is mapped to `"los_angeles"`. -/
theorem normalize_location_la_witness :
    normalize_location (ofString "Oakland, CA") = ofString "los_angeles" :=
  normalize_location_la (ofString "Oakland, CA") (by decide)

/-! ## The dead ampersand replacement in `normalize_title` -/

theorem replaceAmp_eq_self (s : Str) (h : ∀ c ∈ s, c ≠ 38) : replaceAmp s = s := by
  induction s with
  | nil => rfl
  | cons c t ih =>
    have hc : (c == 38) = false := by
      simp only [beq_eq_false_iff_ne, ne_eq]
      exact h c (by simp)
    simp only [replaceAmp, List.flatMap_cons, hc, Bool.false_eq_true, if_false]
    have ht := ih (fun x hx => h x (by simp [hx]))
    simp only [replaceAmp] at ht
    rw [ht]
    rfl

theorem not_amp_mem_stripPunct (s : Str) : ∀ c ∈ stripPunct s, c ≠ 38 := by
  intro c hc
  obtain ⟨_, hpred⟩ := List.mem_filter.mp hc
  rintro rfl
  simp [isWordChar, isSpaceChar] at hpred

/-- C2 (code bug): in `normalize_title` the `&`→`and` replacement runs
AFTER punctuation stripping has already deleted every `&`, so it is dead
code: `normalize_title` equals the pipeline without the replacement, and
`"Sales & Marketing"` comes out as `"sales  marketing"` (double space),
not containing `"and"`. -/
theorem normalize_title_amp_dead :
    (∀ t, normalize_title t = pyStrip (stripPunct (pyStrip (pyLower t)))) ∧
    normalize_title (ofString "Sales & Marketing") = ofString "sales  marketing" ∧
    isSub (ofString "and") (normalize_title (ofString "Sales & Marketing")) = false := by
  refine ⟨?_, by decide, by decide⟩
  intro t
  dsimp only [normalize_title]
  rw [replaceAmp_eq_self _ (not_amp_mem_stripPunct _)]

/-! ## Character-level facts about the normalizers -/

theorem pyLowerChar_idem (c : Nat) : pyLowerChar (pyLowerChar c) = pyLowerChar c := by
  unfold pyLowerChar
  split
  · rename_i h
    rw [if_neg (by omega)]
  · rfl

theorem map_eq_self_of_fix {f : Nat → Nat} :
    ∀ (l : Str), (∀ c ∈ l, f c = c) → l.map f = l := by
  intro l
  induction l with
  | nil => intro _; rfl
  | cons c t ih =>
    intro h
    simp only [List.map_cons]
    rw [h c (by simp), ih (fun x hx => h x (by simp [hx]))]

theorem mem_of_mem_dropWhile {p : Nat → Bool} {l : Str} {c : Nat}
    (h : c ∈ l.dropWhile p) : c ∈ l := by
  have hsplit := List.takeWhile_append_dropWhile p l
  rw [← hsplit]
  exact List.mem_append.mpr (Or.inr h)

theorem mem_of_mem_pyStrip {s : Str} {c : Nat} (h : c ∈ pyStrip s) : c ∈ s := by
  unfold pyStrip at h
  rw [List.mem_reverse] at h
  have h2 := mem_of_mem_dropWhile h
  rw [List.mem_reverse] at h2
  exact mem_of_mem_dropWhile h2

theorem mem_intersperse_str {sep : Str} :
    ∀ {ws : List Str} {x : Str}, x ∈ ws.intersperse sep → x = sep ∨ x ∈ ws := by
  intro ws
  induction ws with
  | nil => intro x hx; simp at hx
  | cons w t ih =>
    intro x hx
    cases t with
    | nil =>
      simp only [List.intersperse_singleton, List.mem_singleton] at hx
      exact Or.inr (by simp [hx])
    | cons w2 t2 =>
      rw [List.intersperse_cons_cons] at hx
      rcases List.mem_cons.mp hx with rfl | hx2
      · exact Or.inr (by simp)
      · rcases List.mem_cons.mp hx2 with rfl | hx3
        · exact Or.inl rfl
        · rcases ih hx3 with h | h
          · exact Or.inl h
          · exact Or.inr (by simp [h])

theorem mem_joinSp {ws : List Str} {c : Nat} (h : c ∈ joinSp ws) :
    (∃ w ∈ ws, c ∈ w) ∨ c = 32 := by
  unfold joinSp at h
  obtain ⟨chunk, hchunk, hc⟩ := List.mem_flatten.mp h
  rcases mem_intersperse_str hchunk with rfl | hmem
  · right
    simpa using hc
  · exact Or.inl ⟨chunk, hmem, hc⟩

/-! ## `dropWhile` / `pyStrip` head, last, and idempotence facts -/

theorem head?_dropWhile {p : Nat → Bool} :
    ∀ {l : Str} {c : Nat}, (l.dropWhile p).head? = some c → p c = false := by
  intro l
  induction l with
  | nil => intro c h; simp at h
  | cons a t ih =>
    intro c h
    rw [List.dropWhile_cons] at h
    split at h
    · exact ih h
    · rename_i ha
      rw [List.head?_cons, Option.some.injEq] at h
      subst h
      exact Bool.not_eq_true _ ▸ (by simpa using ha)

theorem dropWhile_eq_self_of_head? {p : Nat → Bool} {l : Str}
    (h : ∀ c, l.head? = some c → p c = false) : l.dropWhile p = l := by
  cases l with
  | nil => rfl
  | cons a t =>
    rw [List.dropWhile_cons, if_neg (by simp [h a rfl])]

theorem dropWhile_idem (p : Nat → Bool) (l : Str) :
    (l.dropWhile p).dropWhile p = l.dropWhile p :=
  dropWhile_eq_self_of_head? (fun _ hc => head?_dropWhile hc)

theorem getLast?_of_getLast?_dropWhile {p : Nat → Bool} {u : Str} {c : Nat}
    (h : (u.dropWhile p).getLast? = some c) : u.getLast? = some c := by
  have h2 := @List.getLast?_append _ (u.takeWhile p) (u.dropWhile p)
  rw [List.takeWhile_append_dropWhile] at h2
  rw [h2, h]
  rfl

theorem pyStrip_head_ok {s : Str} {c : Nat} (h : (pyStrip s).head? = some c) :
    isSpaceChar c = false := by
  unfold pyStrip at h
  rw [List.head?_reverse] at h
  have h2 := getLast?_of_getLast?_dropWhile h
  have h4 := List.head?_reverse (s.dropWhile (isSpaceChar ·)).reverse
  rw [List.reverse_reverse] at h4
  exact head?_dropWhile (h4.trans h2)

theorem pyStrip_getLast_ok {s : Str} {c : Nat} (h : (pyStrip s).getLast? = some c) :
    isSpaceChar c = false := by
  unfold pyStrip at h
  have h4 := List.head?_reverse
    ((s.dropWhile (isSpaceChar ·)).reverse.dropWhile (isSpaceChar ·)).reverse
  rw [List.reverse_reverse] at h4
  rw [← h4] at h
  exact head?_dropWhile h

theorem pyStrip_idem (s : Str) : pyStrip (pyStrip s) = pyStrip s := by
  have h1 : (pyStrip s).dropWhile (isSpaceChar ·) = pyStrip s :=
    dropWhile_eq_self_of_head? (fun _ hc => by simp [pyStrip_head_ok hc])
  show (((pyStrip s).dropWhile (isSpaceChar ·)).reverse.dropWhile (isSpaceChar ·)).reverse
      = pyStrip s
  rw [h1]
  have h2 : (pyStrip s).reverse.dropWhile (isSpaceChar ·) = (pyStrip s).reverse := by
    apply dropWhile_eq_self_of_head?
    intro c hc
    rw [List.head?_reverse] at hc
    simp [pyStrip_getLast_ok hc]
  rw [h2, List.reverse_reverse]

/-! ## `splitWs` structure lemmas -/

theorem splitWsAux_mem {P : Nat → Prop} :
    ∀ (s acc : Str), (∀ c ∈ s, P c) → (∀ c ∈ acc, P c ∧ isSpaceChar c = false) →
      ∀ w ∈ splitWsAux s acc, w ≠ [] ∧ ∀ c ∈ w, P c ∧ isSpaceChar c = false := by
  intro s
  induction s with
  | nil =>
    intro acc _ hacc w hw
    simp only [splitWsAux] at hw
    split at hw
    · simp at hw
    · rename_i hne
      rw [List.mem_singleton] at hw
      subst hw
      refine ⟨?_, fun c hc => hacc c (List.mem_reverse.mp hc)⟩
      intro habs
      rw [List.reverse_eq_nil_iff] at habs
      subst habs
      simp at hne
  | cons c0 rest ih =>
    intro acc hs hacc w hw
    simp only [splitWsAux] at hw
    split at hw
    · split at hw
      · exact ih [] (fun c hc => hs c (by simp [hc])) (by simp) w hw
      · rename_i hne
        rcases List.mem_cons.mp hw with rfl | hw2
        · refine ⟨?_, fun c hc => hacc c (List.mem_reverse.mp hc)⟩
          intro habs
          rw [List.reverse_eq_nil_iff] at habs
          subst habs
          simp at hne
        · exact ih [] (fun c hc => hs c (by simp [hc])) (by simp) w hw2
    · rename_i hsp
      refine ih (c0 :: acc) (fun c hc => hs c (by simp [hc])) ?_ w hw
      intro c hc
      rcases List.mem_cons.mp hc with rfl | hc2
      · exact ⟨hs c (by simp), by simpa using hsp⟩
      · exact hacc c hc2

theorem splitWsAux_word (w : Str) (hw : ∀ c ∈ w, isSpaceChar c = false) :
    ∀ (t acc : Str), splitWsAux (w ++ t) acc = splitWsAux t (w.reverse ++ acc) := by
  induction w with
  | nil => intro t acc; simp
  | cons c w2 ih =>
    intro t acc
    have hc : isSpaceChar c = false := hw c (by simp)
    simp only [List.cons_append, splitWsAux, hc, Bool.false_eq_true, if_false, List.append_eq]
    rw [ih (fun x hx => hw x (by simp [hx])) t (c :: acc)]
    simp

theorem splitWsAux_all_space (sp : Str) (hsp : ∀ c ∈ sp, isSpaceChar c = true) :
    ∀ acc, splitWsAux sp acc = if acc == [] then [] else [acc.reverse] := by
  induction sp with
  | nil => intro acc; rfl
  | cons c t ih =>
    intro acc
    have h0 : splitWsAux t [] = [] := by
      rw [ih (fun x hx => hsp x (by simp [hx])) []]
      rfl
    simp only [splitWsAux, hsp c (by simp), if_true, h0]

theorem splitWs_joinSp :
    ∀ (ws : List Str), (∀ w ∈ ws, w ≠ [] ∧ ∀ c ∈ w, isSpaceChar c = false) →
      splitWs (joinSp ws) = ws := by
  intro ws
  induction ws with
  | nil => intro _; rfl
  | cons w t ih =>
    intro h
    obtain ⟨hwne, hwc⟩ := h w (by simp)
    have hrev : (w.reverse == ([] : Str)) = false := by
      rw [beq_eq_false_iff_ne, ne_eq, List.reverse_eq_nil_iff]
      exact hwne
    cases t with
    | nil =>
      have hj : joinSp [w] = w ++ [] := by simp [joinSp]
      rw [hj]
      unfold splitWs
      rw [splitWsAux_word w hwc [] []]
      simp only [splitWsAux, List.append_nil, hrev, Bool.false_eq_true, if_false,
        List.reverse_reverse]
    | cons w2 t2 =>
      have hj : joinSp (w :: w2 :: t2) = w ++ 32 :: joinSp (w2 :: t2) := by
        simp [joinSp, List.intersperse_cons_cons]
      rw [hj]
      unfold splitWs
      rw [splitWsAux_word w hwc _ []]
      have hsp32 : isSpaceChar 32 = true := by decide
      simp only [splitWsAux, hsp32, if_true, List.append_nil, hrev, Bool.false_eq_true,
        if_false, List.reverse_reverse]
      have ih2 := ih (fun x hx => h x (by simp [hx]))
      unfold splitWs at ih2
      rw [ih2]

theorem splitWsAux_leading :
    ∀ (s : Str), splitWsAux s [] = splitWsAux (s.dropWhile (isSpaceChar ·)) [] := by
  intro s
  induction s with
  | nil => rfl
  | cons c t ih =>
    rw [List.dropWhile_cons]
    cases hc : isSpaceChar c with
    | true =>
      simp only [splitWsAux, hc, if_true]
      simpa using ih
    | false =>
      simp only [hc, Bool.false_eq_true, if_false]

theorem splitWsAux_trailing (sp : Str) (hsp : ∀ c ∈ sp, isSpaceChar c = true) :
    ∀ (s acc : Str), splitWsAux (s ++ sp) acc = splitWsAux s acc := by
  intro s
  induction s with
  | nil =>
    intro acc
    rw [List.nil_append, splitWsAux_all_space sp hsp acc]
    rfl
  | cons c t ih =>
    intro acc
    simp only [List.cons_append, splitWsAux, List.append_eq]
    cases hc : isSpaceChar c with
    | true => simp only [if_true, ih]
    | false => simp only [Bool.false_eq_true, if_false, ih]

theorem splitWs_pyStrip (s : Str) : splitWs (pyStrip s) = splitWs s := by
  have hdecomp : s.dropWhile (isSpaceChar ·) =
      pyStrip s ++ ((s.dropWhile (isSpaceChar ·)).reverse.takeWhile (isSpaceChar ·)).reverse := by
    have h1 := List.takeWhile_append_dropWhile (isSpaceChar ·)
      (s.dropWhile (isSpaceChar ·)).reverse
    have h2 := congrArg List.reverse h1
    rw [List.reverse_append, List.reverse_reverse] at h2
    exact h2.symm
  have hspace : ∀ c ∈ ((s.dropWhile (isSpaceChar ·)).reverse.takeWhile (isSpaceChar ·)).reverse,
      isSpaceChar c = true := by
    intro c hc
    exact List.mem_takeWhile_imp (List.mem_reverse.mp hc)
  unfold splitWs
  rw [splitWsAux_leading s, hdecomp, splitWsAux_trailing _ hspace]

/-! ## Idempotence of the normalizers -/

theorem splitWs_stripPunct_tokens (x : Str) :
    ∀ w ∈ splitWs (stripPunct (pyStrip (pyLower x))),
      w ≠ [] ∧ ∀ c ∈ w, isWordChar c = true ∧ isSpaceChar c = false ∧ pyLowerChar c = c := by
  intro w hw
  have hP : ∀ c ∈ stripPunct (pyStrip (pyLower x)),
      (isWordChar c = true ∨ isSpaceChar c = true) ∧ pyLowerChar c = c := by
    intro c hc
    obtain ⟨hc1, hc2⟩ := List.mem_filter.mp hc
    refine ⟨by simpa using hc2, ?_⟩
    obtain ⟨d, _, rfl⟩ := List.mem_map.mp (mem_of_mem_pyStrip hc1)
    exact pyLowerChar_idem d
  have h := splitWsAux_mem (stripPunct (pyStrip (pyLower x))) [] hP (by simp) w hw
  refine ⟨h.1, ?_⟩
  intro c hc
  obtain ⟨⟨hor, hlow⟩, hns⟩ := h.2 c hc
  rcases hor with hword | hsp
  · exact ⟨hword, hns, hlow⟩
  · rw [hns] at hsp
    exact absurd hsp (by simp)

theorem normalize_company_idem (x : Str) :
    normalize_company (normalize_company x) = normalize_company x := by
  dsimp only [normalize_company]
  set ws2 := (splitWs (stripPunct (pyStrip (pyLower x)))).filter
    (fun w => !(COMPANY_SUFFIXES.contains w)) with hws2
  have htok : ∀ w ∈ ws2, w ≠ [] ∧
      ∀ c ∈ w, isWordChar c = true ∧ isSpaceChar c = false ∧ pyLowerChar c = c := by
    intro w hw
    rw [hws2] at hw
    exact splitWs_stripPunct_tokens x w (List.mem_filter.mp hw).1
  set out := pyStrip (joinSp ws2) with hout
  have hchar : ∀ c ∈ out, (isWordChar c = true ∨ c = 32) ∧ pyLowerChar c = c := by
    intro c hc
    have hc2 := mem_of_mem_pyStrip hc
    rcases mem_joinSp hc2 with ⟨w, hw, hcw⟩ | rfl
    · obtain ⟨_, hprops⟩ := htok w hw
      obtain ⟨hword, _, hlow⟩ := hprops c hcw
      exact ⟨Or.inl hword, hlow⟩
    · exact ⟨Or.inr rfl, by decide⟩
  have hlower : pyLower out = out :=
    map_eq_self_of_fix out (fun c hc => (hchar c hc).2)
  have hstrip : pyStrip out = out := by
    rw [hout, pyStrip_idem]
  have hpunct : stripPunct out = out := by
    apply List.filter_eq_self.mpr
    intro c hc
    rcases (hchar c hc).1 with hword | rfl
    · simp [hword]
    · decide
  have hsplit : splitWs out = ws2 := by
    rw [hout, splitWs_pyStrip]
    apply splitWs_joinSp
    intro w hw
    obtain ⟨hne, hprops⟩ := htok w hw
    exact ⟨hne, fun c hc => (hprops c hc).2.1⟩
  have hfilter : ws2.filter (fun w => !(COMPANY_SUFFIXES.contains w)) = ws2 := by
    apply List.filter_eq_self.mpr
    intro w hw
    rw [hws2] at hw
    exact (List.mem_filter.mp hw).2
  rw [hlower, hstrip, hpunct, hsplit, hfilter]

theorem normalize_title_eq_nodead (t : Str) :
    normalize_title t = pyStrip (stripPunct (pyStrip (pyLower t))) := by
  dsimp only [normalize_title]
  rw [replaceAmp_eq_self _ (not_amp_mem_stripPunct _)]

theorem normalize_title_idem (x : Str) :
    normalize_title (normalize_title x) = normalize_title x := by
  rw [normalize_title_eq_nodead x]
  set t2 := stripPunct (pyStrip (pyLower x)) with ht2
  have hchar : ∀ c ∈ pyStrip t2, (isWordChar c || isSpaceChar c) = true ∧ pyLowerChar c = c := by
    intro c hc
    have hc2 := mem_of_mem_pyStrip hc
    rw [ht2] at hc2
    obtain ⟨hc3, hpred⟩ := List.mem_filter.mp hc2
    refine ⟨hpred, ?_⟩
    obtain ⟨d, _, rfl⟩ := List.mem_map.mp (mem_of_mem_pyStrip hc3)
    exact pyLowerChar_idem d
  rw [normalize_title_eq_nodead (pyStrip t2)]
  have hlower : pyLower (pyStrip t2) = pyStrip t2 :=
    map_eq_self_of_fix _ (fun c hc => (hchar c hc).2)
  rw [hlower, pyStrip_idem]
  have hpunct : stripPunct (pyStrip t2) = pyStrip t2 :=
    List.filter_eq_self.mpr (fun c hc => (hchar c hc).1)
  rw [hpunct, pyStrip_idem]

/-- C9: `normalize_company` and `normalize_title` are idempotent. -/
theorem normalize_company_title_idem (x : Str) :
    normalize_company (normalize_company x) = normalize_company x ∧
    normalize_title (normalize_title x) = normalize_title x :=
  ⟨normalize_company_idem x, normalize_title_idem x⟩

/-! ## Fuzzy key segmentation -/

theorem bar_not_mem_normalize_company (x : Str) : (124 : Nat) ∉ normalize_company x := by
  dsimp only [normalize_company]
  intro h
  have h2 := mem_of_mem_pyStrip h
  rcases mem_joinSp h2 with ⟨w, hw, hcw⟩ | h32
  · have htok := splitWs_stripPunct_tokens x w (List.mem_filter.mp hw).1
    obtain ⟨hword, _, _⟩ := htok.2 124 hcw
    exact absurd hword (by decide)
  · omega

theorem bar_not_mem_normalize_title (x : Str) : (124 : Nat) ∉ normalize_title x := by
  rw [normalize_title_eq_nodead]
  intro h
  have h2 := mem_of_mem_pyStrip h
  have hpred := (List.mem_filter.mp h2).2
  exact absurd hpred (by decide)

theorem bar_not_mem_normalize_location (loc : Str) (h : (124 : Nat) ∉ loc) :
    (124 : Nat) ∉ normalize_location loc := by
  dsimp only [normalize_location]
  split
  · decide
  · split
    · decide
    · split
      · decide
      · intro hmem
        have h2 := mem_of_mem_pyStrip hmem
        obtain ⟨d, hd, hdeq⟩ := List.mem_map.mp h2
        have hd124 : d = 124 := by
          unfold pyLowerChar at hdeq
          split at hdeq <;> omega
        subst hd124
        exact h hd

theorem splitBar_no_bar : ∀ (s : Str), (124 : Nat) ∉ s → splitBar s = [s] := by
  intro s
  induction s with
  | nil => intro _; rfl
  | cons c t ih =>
    intro h
    have hc : (c == 124) = false := by
      rw [beq_eq_false_iff_ne]
      rintro rfl
      exact h (by simp)
    simp only [splitBar, hc, Bool.false_eq_true, if_false]
    rw [ih (fun hm => h (by simp [hm]))]

theorem splitBar_append (a r : Str) (h : (124 : Nat) ∉ a) :
    splitBar (a ++ 124 :: r) = a :: splitBar r := by
  induction a with
  | nil => simp [splitBar]
  | cons c t ih =>
    have hc : (c == 124) = false := by
      rw [beq_eq_false_iff_ne]
      rintro rfl
      exact h (by simp)
    simp only [List.cons_append, splitBar, hc, Bool.false_eq_true, if_false, List.append_eq]
    rw [ih (fun hm => h (by simp [hm]))]

/-- C3 (amended): `|` never occurs in a normalized company or title;
when the raw location contains no `|` (so the normalized location —
canonical tag or passthrough — contains none either), the fuzzy key
splits on `|` into exactly the three normalized fields. -/
theorem fuzzy_key_segments (l : JobListing) (h : (124 : Nat) ∉ l.location) :
    splitBar (generate_fuzzy_key l) =
      [normalize_company l.company, normalize_title l.title,
        normalize_location l.location] ∧
    (splitBar (generate_fuzzy_key l)).length = 3 := by
  have hc := bar_not_mem_normalize_company l.company
  have ht := bar_not_mem_normalize_title l.title
  have hl := bar_not_mem_normalize_location l.location h
  have heq : splitBar (generate_fuzzy_key l) =
      [normalize_company l.company, normalize_title l.title,
        normalize_location l.location] := by
    dsimp only [generate_fuzzy_key]
    have hshape : normalize_company l.company ++ [124] ++ normalize_title l.title
          ++ [124] ++ normalize_location l.location
        = normalize_company l.company
          ++ 124 :: (normalize_title l.title ++ 124 :: normalize_location l.location) := by
      simp [List.append_assoc]
    rw [hshape, splitBar_append _ _ hc, splitBar_append _ _ ht, splitBar_no_bar _ hl]
  exact ⟨heq, by rw [heq]; rfl⟩

/-- Witness for the amended C3: Scenario A's first listing has a
bar-free location, so its key has exactly the three segments. -/
theorem fuzzy_key_segments_witness :
    splitBar (generate_fuzzy_key scA1) =
      [normalize_company scA1.company, normalize_title scA1.title,
        normalize_location scA1.location] ∧
    (splitBar (generate_fuzzy_key scA1)).length = 3 :=
  fuzzy_key_segments scA1 (by decide)

/-- Counterexample to C3 as stated: the free-text location
`"Remote | USA"` passes through normalization with its `|` intact, so
the fuzzy key splits into 4 segments, not 3. -/
theorem fuzzy_key_segments_counterexample :
    (124 : Nat) ∈ normalize_location barLoc.location ∧
    (splitBar (generate_fuzzy_key barLoc)).length = 4 := by decide
